import Mathlib

/-!
# gofpdfcertificate: colour flattening and the drawing cursor

A shallow embedding of `main.go`:

* `rgb` blends a `color.RGBA` over white with `float64` arithmetic; the
  embedding models a finite binary64 value by significand and exponent and
  rounds every operation to nearest, ties to even (`roundNE`).
* `PDF` wraps a drawing surface and mirrors its cursor; the surface
  (`gofpdf.Fpdf`, an external library) is modelled by the log of the calls
  issued on it.
-/

namespace Certificate

/-! ## binary64 arithmetic -/

/-- Exponent `e` of the unit in the last place of the binary64 values around the
positive rational `x = n / d`: the significand has 53 bits, so `e` is 52 below
the exponent of the leading bit of `x`, and never below the subnormal exponent
`-1074`. The leading bit of `x` is read off the integer part of `x * 2 ^ 1126`,
which has at least 53 bits as soon as `x` reaches `2 ^ (-1074)`; for smaller
`x` the subnormal exponent applies. -/
def ulpExp (n d : Nat) : Int :=
  max ((Nat.log2 (n * 2 ^ 1126 / d) : Int) - 1178) (-1074)

/-- Quotient `sn / sd` rounded to the nearest integer, ties to the even one. -/
def rne (sn sd : Nat) : Nat :=
  let m := sn / sd
  let r := sn % sd
  if 2 * r < sd then m else if sd < 2 * r then m + 1 else m + m % 2

/-- Round the rational `n / d` (`d` positive) to the nearest multiple of
`2 ^ ulpExp`, ties to the even multiple: IEEE 754 round-to-nearest-even onto
binary64. The result is the pair significand, exponent. Overflow to infinity is
not modelled; every value `rgb` handles lies between 0 and 65025. -/
def roundNE (n : Int) (d : Nat) : Int × Int :=
  if n = 0 then (0, 0) else
  let e := ulpExp n.natAbs d
  (n.sign * (rne (n.natAbs * 2 ^ (-e).toNat) (d * 2 ^ e.toNat) : Nat), e)

/-- A finite `float64`: the value `man * 2 ^ exp`. -/
structure F64 where
  man : Int
  exp : Int
deriving DecidableEq

namespace F64

/-- Numerator of the value as a fraction `num / den`. -/
def num (a : F64) : Int := a.man * (2 ^ a.exp.toNat : Nat)

/-- Denominator of the value as a fraction `num / den`, a power of two. -/
def den (a : F64) : Nat := 2 ^ (-a.exp).toNat

/-- The binary64 value nearest to the fraction `n / d`. -/
def round (n : Int) (d : Nat) : F64 := ⟨(roundNE n d).1, (roundNE n d).2⟩

/-- Conversion `float64(n)` of an integer; exact below `2 ^ 53`, rounded above. -/
def ofInt (n : Int) : F64 := round n 1

/-- Addition `a + b` on `float64`. -/
def add (a b : F64) : F64 := round (a.num * b.den + b.num * a.den) (a.den * b.den)

/-- Subtraction `a - b` on `float64`. -/
def sub (a b : F64) : F64 := round (a.num * b.den - b.num * a.den) (a.den * b.den)

/-- Multiplication `a * b` on `float64`. -/
def mul (a b : F64) : F64 := round (a.num * b.num) (a.den * b.den)

/-- Division `a / b` on `float64`, for a nonzero divisor. -/
def div (a b : F64) : F64 := round (a.num * b.den * b.num.sign) (a.den * b.num.natAbs)

/-- Conversion `int(f)`: the fractional part is discarded (truncation toward zero). -/
def toInt (a : F64) : Int := a.num.sign * (a.num.natAbs / a.den : Nat)

instance : Add F64 := ⟨add⟩

end F64

/-! ## Colours -/

/-- The type `color.RGBA`; each channel is a `uint8`, here a natural number
that `RGBA.valid` bounds by 255. -/
structure RGBA where
  R : Nat
  G : Nat
  B : Nat
  A : Nat
deriving DecidableEq

/-- All four channels are 8-bit values. -/
def RGBA.valid (c : RGBA) : Prop := c.R < 256 ∧ c.G < 256 ∧ c.B < 256 ∧ c.A < 256

instance (c : RGBA) : Decidable c.valid := by unfold RGBA.valid; infer_instance

/-- Embedding of `rgb`: the red, green and blue values of a colour over white. -/
def rgb (c : RGBA) : Int × Int × Int :=
  let alpha := F64.div (F64.ofInt c.A) (F64.ofInt 255)
  let alphaWhite := F64.toInt (F64.mul (F64.ofInt 255) (F64.sub (F64.ofInt 1) alpha))
  let r := F64.toInt (F64.mul (F64.ofInt c.R) alpha) + alphaWhite
  let g := F64.toInt (F64.mul (F64.ofInt c.G) alpha) + alphaWhite
  let b := F64.toInt (F64.mul (F64.ofInt c.B) alpha) + alphaWhite
  (r, g, b)

/-- One channel of `rgb`: the value computed for channel `ch` under alpha `A`. -/
def channel (ch A : Nat) : Int :=
  F64.toInt (F64.mul (F64.ofInt ch) (F64.div (F64.ofInt A) (F64.ofInt 255)))
    + F64.toInt (F64.mul (F64.ofInt 255)
        (F64.sub (F64.ofInt 1) (F64.div (F64.ofInt A) (F64.ofInt 255))))

/-! ## Checked evaluation

The functions below compute the roundings of `rgb` on natural numbers, written
with the primitive operations of `Nat`. The exponent of each rounding is
proposed from the size of the operands and then checked against the bracket
`2 ^ 52 ≤ n * 2 ^ t / d < 2 ^ 53`, so a wrong proposal makes the check fail
rather than the result wrong. -/

/-- Pass `x` on to `k` once its value is known. -/
def forceNat {α : Sort u} (x : Nat) (k : Nat → α) : α :=
  match x with
  | 0 => k 0
  | n + 1 => k (n + 1)

/-- Conjunction of `p i` over all `i < n`. -/
def allBelow : Nat → (Nat → Bool) → Bool
  | 0, _ => true
  | n + 1, p => p n && allBelow n p

/-- The function `rne` on the primitive operations: the quotient, plus one when
the remainder is above one half, plus the parity of the quotient on a tie. -/
def rneF (sn sd : Nat) : Nat :=
  Nat.add (Nat.div sn sd)
    (Nat.add (Nat.sub 1 (Nat.sub 1 (Nat.sub (Nat.mul 2 (Nat.mod sn sd)) sd)))
      (Nat.mul
        (Nat.sub 1 (Nat.add (Nat.sub (Nat.mul 2 (Nat.mod sn sd)) sd)
          (Nat.sub sd (Nat.mul 2 (Nat.mod sn sd)))))
        (Nat.mod (Nat.div sn sd) 2)))

/-- Test that `-t` is the exponent of the rounding of `n / d`:
`2 ^ 52 * d ≤ n * 2 ^ t < 2 ^ 53 * d`, `0 < d` and `t ≤ 1074`, each condition
being a truncated difference that is zero. -/
def okR (n d t : Nat) : Bool :=
  Nat.beq (Nat.add (Nat.sub (Nat.mul 4503599627370496 d) (Nat.mul n (Nat.pow 2 t)))
    (Nat.add (Nat.sub (Nat.succ (Nat.mul n (Nat.pow 2 t))) (Nat.mul 9007199254740992 d))
      (Nat.add (Nat.sub 1 d) (Nat.sub t 1074)))) 0

/-- Round `n / d` with proposed exponents `-c1`, `-c2`, and pass significand `m`
and exponent `-t` on to `k`; `false` when neither proposal is the exponent. -/
def rnd (n d c1 c2 : Nat) (k : Nat → Nat → Bool) : Bool :=
  cond (Nat.beq n 0) (k 0 0)
    (cond (okR n d c1) (k (rneF (Nat.mul n (Nat.pow 2 c1)) d) c1)
      (cond (okR n d c2) (k (rneF (Nat.mul n (Nat.pow 2 c2)) d) c2) false))

/-- The number `1` if `k ≤ v`, else `0`. -/
def geB (k v : Nat) : Nat := Nat.sub 1 (Nat.sub k v)

/-- Position of the leading bit of a byte; used to propose exponents only. -/
def bitHint (v : Nat) : Nat :=
  Nat.add (geB 2 v) (Nat.add (geB 4 v) (Nat.add (geB 8 v) (Nat.add (geB 16 v)
    (Nat.add (geB 32 v) (Nat.add (geB 64 v) (geB 128 v))))))

/-- Checked `alpha := float64(c.A) / 255.0`: significand and exponent go to `k`. -/
def alphaC (A : Nat) (k : Nat → Nat → Bool) : Bool :=
  forceNat (bitHint A) fun jA =>
  rnd A 1 (Nat.sub 52 jA) 0 fun mA tA =>
  rnd (Nat.mul mA (Nat.pow 2 45)) (Nat.mul (Nat.pow 2 tA) 8972014882652160)
    (Nat.sub 59 jA) (Nat.sub 60 jA) k

/-- Checked `alphaWhite := int(255 * (1.0 - alpha))` for `alpha = ma * 2 ^ (-ta)`. -/
def whiteC (ma ta jR : Nat) (k : Nat → Bool) : Bool :=
  and (Nat.ble (Nat.mul ma (Nat.pow 2 52)) (Nat.mul 4503599627370496 (Nat.pow 2 ta)))
    (rnd (Nat.sub (Nat.mul 4503599627370496 (Nat.pow 2 ta)) (Nat.mul ma (Nat.pow 2 52)))
        (Nat.mul (Nat.pow 2 52) (Nat.pow 2 ta)) (Nat.sub 59 jR) (Nat.sub 60 jR) fun mr tr =>
      rnd (Nat.mul 8972014882652160 mr) (Nat.mul (Nat.pow 2 45) (Nat.pow 2 tr))
        (Nat.sub 52 jR) (Nat.sub 53 jR) fun mw tw =>
      forceNat (Nat.div mw (Nat.pow 2 tw)) k)

/-- Proposal for the exponent of `float64(ch)`, for a byte `ch`. -/
def byteExp (ch : Nat) : Nat := cond (Nat.beq ch 0) 0 (Nat.sub 52 (bitHint ch))

/-- Checked `int(float64(ch) * alpha)` for `alpha = ma * 2 ^ (-ta)` and a byte
`ch`, whose conversion `float64(ch)` is exact. -/
def prodC (ma ta ch : Nat) (k : Nat → Bool) : Bool :=
  rnd (Nat.mul ch ma) (Nat.pow 2 ta) (Nat.sub ta (bitHint ch))
    (Nat.sub (Nat.sub ta (bitHint ch)) 1) fun mx tx =>
  k (Nat.div mx (Nat.pow 2 tx))

/-- Check `p ch A o` for the output `o` of every channel `ch < nC` under every
alpha `A` with `lo ≤ A < lo + nA`. -/
def sweepF (lo nA nC : Nat) (p : Nat → Nat → Nat → Bool) : Bool :=
  allBelow nA fun i =>
  forceNat (Nat.add lo i) fun A =>
  alphaC A fun ma ta =>
  forceNat (bitHint (Nat.sub 255 A)) fun jR =>
  whiteC ma ta jR fun w =>
  allBelow nC fun ch =>
  prodC ma ta ch fun x => p ch A (Nat.add x w)

/-- The blend in exact arithmetic: `⌊ch * A / 255⌋ + (255 - A)`. -/
def exactN (ch A : Nat) : Nat := Nat.add (Nat.div (Nat.mul ch A) 255) (Nat.sub 255 A)

/-- The bounds checked of the output `o` of channel `ch` under alpha `A`:
`o ≤ exactN`, `exactN ≤ o + 1`, `o ≤ 255` and `ch ≤ o + 1`, each a truncated
difference that is zero. -/
def tbl (ch A o : Nat) : Bool :=
  Nat.beq (Nat.add (Nat.sub o (exactN ch A)) (Nat.add (Nat.sub (exactN ch A) (Nat.succ o))
    (Nat.add (Nat.sub o 255) (Nat.sub ch (Nat.succ o))))) 0

/-! ## The drawing surface and the cursor

The cursor code uses `float64` only through `+`, so the surface and the wrapper
are stated over any type `F` of coordinates with an addition; `F64` is one. -/

/-- The type `gofpdf.PointType`. -/
structure PointType (F : Type) where
  X : F
  Y : F

/-- A call issued on the drawing surface, with its arguments. -/
inductive Call (F : Type) where
  | MoveTo (x y : F)
  | Text (x y : F) (txtStr : String)
  | SetFillColor (r g b : Int)
  | Polygon (points : List (PointType F)) (styleStr : String)

/-- The drawing surface `*gofpdf.Fpdf`. It belongs to an external library; the
embedding records the calls issued on it, oldest first. -/
structure Fpdf (F : Type) where
  calls : List (Call F)

namespace Fpdf

variable {F : Type}

/-- The call `pdf.MoveTo(x, y)`. -/
def MoveTo (s : Fpdf F) (x y : F) : Fpdf F := ⟨s.calls ++ [Call.MoveTo x y]⟩

/-- The call `pdf.Text(x, y, txtStr)`. -/
def Text (s : Fpdf F) (x y : F) (txtStr : String) : Fpdf F :=
  ⟨s.calls ++ [Call.Text x y txtStr]⟩

/-- The call `pdf.SetFillColor(r, g, b)`. -/
def SetFillColor (s : Fpdf F) (r g b : Int) : Fpdf F :=
  ⟨s.calls ++ [Call.SetFillColor r g b]⟩

/-- The call `pdf.Polygon(points, styleStr)`. -/
def Polygon (s : Fpdf F) (points : List (PointType F)) (styleStr : String) : Fpdf F :=
  ⟨s.calls ++ [Call.Polygon points styleStr]⟩

/-- The surface's cursor as set by `MoveTo`: the arguments of the last such call. -/
def cursor (s : Fpdf F) : Option (F × F) :=
  s.calls.foldl (fun acc c => match c with
    | Call.MoveTo x y => some (x, y)
    | _ => acc) none

/-- The fill colour in effect: the arguments of the last `SetFillColor` call. -/
def fillColor (s : Fpdf F) : Option (Int × Int × Int) :=
  s.calls.foldl (fun acc c => match c with
    | Call.SetFillColor r g b => some (r, g, b)
    | _ => acc) none

end Fpdf

/-- The type `PDFOption`: a function applied to the surface for its effect. -/
def PDFOption (F : Type) : Type := Fpdf F → Fpdf F

/-- Embedding of `FillColor`: the option that sets the fill colour to `rgb c`. -/
def FillColor {F : Type} (c : RGBA) : PDFOption F := fun pdf =>
  match rgb c with
  | (r, g, b) => pdf.SetFillColor r g b

/-- The type `PDF`: the surface and the wrapper's own position. -/
structure PDF (F : Type) where
  fpdf : Fpdf F
  x : F
  y : F

namespace PDF

variable {F : Type}

/-- Embedding of `(*PDF).Move`. -/
def Move [Add F] (p : PDF F) (xDelta yDelta : F) : PDF F :=
  let x := p.x + xDelta
  let y := p.y + yDelta
  { fpdf := p.fpdf.MoveTo x y, x := x, y := y }

/-- Embedding of `(*PDF).MoveAbs`. -/
def MoveAbs (p : PDF F) (x y : F) : PDF F :=
  { fpdf := p.fpdf.MoveTo x y, x := x, y := y }

/-- Embedding of `(*PDF).Text`. -/
def Text (p : PDF F) (text : String) : PDF F :=
  { p with fpdf := p.fpdf.Text p.x p.y text }

/-- Embedding of `(*PDF).Polygon`: the loop over `opts`, then the draw. -/
def Polygon (p : PDF F) (pts : List (PointType F)) (opts : List (PDFOption F)) : PDF F :=
  { p with fpdf := (opts.foldl (fun s opt => opt s) p.fpdf).Polygon pts "F" }

end PDF

/-- A cursor mutation: a call of `Move` or of `MoveAbs` with its arguments. -/
inductive CursorOp (F : Type) where
  | Move (xDelta yDelta : F)
  | MoveAbs (x y : F)

/-- Perform one cursor mutation. -/
def PDF.step {F : Type} [Add F] (p : PDF F) : CursorOp F → PDF F
  | CursorOp.Move dx dy => p.Move dx dy
  | CursorOp.MoveAbs x y => p.MoveAbs x y

/-- Perform a sequence of cursor mutations, first to last. -/
def PDF.run {F : Type} [Add F] (p : PDF F) (ops : List (CursorOp F)) : PDF F :=
  ops.foldl PDF.step p

/-- The specification's reading of the options of `drawPolygon`: applied one
after the other, in the order of the list. -/
def applyOptions {F : Type} : List (PDFOption F) → Fpdf F → Fpdf F
  | [], s => s
  | opt :: rest, s => applyOptions rest (opt s)

/-- The arguments the last call of `Move` or `MoveAbs` was given. -/
def CursorOp.args {F : Type} : CursorOp F → F × F
  | CursorOp.Move dx dy => (dx, dy)
  | CursorOp.MoveAbs x y => (x, y)

/-! ## The blend in exact arithmetic -/

/-- Truncation toward zero of a rational. -/
def truncQ (q : ℚ) : Int := if 0 ≤ q then ⌊q⌋ else ⌈q⌉

/-- The specification's formula in exact arithmetic: with `a = alpha / 255`, the
white contribution `round (255 * (1 - a))` plus `round (channel * a)`, where
`round` truncates toward zero. -/
def flattenExact (ch A : Nat) : Int :=
  let a : ℚ := (A : ℚ) / 255
  let whiteContribution := truncQ (255 * (1 - a))
  truncQ ((ch : ℚ) * a) + whiteContribution

/-! ## Roundings with a known exponent

When the exponent `-t` of a rounding is known, the result is a single rounded
quotient; the exponent is known as soon as `n * 2 ^ t / d` lies between
`2 ^ 52` and `2 ^ 53`. -/

theorem rgb_eq_channel (c : RGBA) :
    rgb c = (channel c.R c.A, channel c.G c.A, channel c.B c.A) := rfl

theorem two_pow_split (a b : Nat) (h : b ≤ a) : (2 : Nat) ^ a = 2 ^ b * 2 ^ (a - b) := by
  rw [← pow_add]; congr 1; omega

theorem two_pow_shift (a c b : Nat) (h : b ≤ a) :
    (2 : Nat) ^ (a + c - b) = 2 ^ c * 2 ^ (a - b) := by
  rw [← pow_add]; congr 1; omega

theorem ulpExp_of_bracket (n d t : Nat) (hd : 0 < d) (h1 : 2 ^ 52 * d ≤ n * 2 ^ t)
    (h2 : n * 2 ^ t < 2 ^ 53 * d) (ht : t ≤ 1074) : ulpExp n d = -(t : Int) := by
  have ht1 : t ≤ 1126 := by omega
  have e1 := two_pow_split 1126 t ht1
  have e2 := two_pow_shift 1126 52 t ht1
  have e3 := two_pow_shift 1126 53 t ht1
  have hpos : 0 < (2 : Nat) ^ (1126 - t) := Nat.two_pow_pos _
  have hq1 : 2 ^ (1126 + 52 - t) ≤ n * 2 ^ 1126 / d := by
    rw [Nat.le_div_iff_mul_le hd, e1, e2]
    calc 2 ^ 52 * 2 ^ (1126 - t) * d = (2 ^ 52 * d) * 2 ^ (1126 - t) := by ring
      _ ≤ (n * 2 ^ t) * 2 ^ (1126 - t) := Nat.mul_le_mul_right _ h1
      _ = n * (2 ^ t * 2 ^ (1126 - t)) := by ring
  have hq2 : n * 2 ^ 1126 / d < 2 ^ (1126 + 53 - t) := by
    rw [Nat.div_lt_iff_lt_mul hd, e1, e3]
    calc n * (2 ^ t * 2 ^ (1126 - t)) = (n * 2 ^ t) * 2 ^ (1126 - t) := by ring
      _ < (2 ^ 53 * d) * 2 ^ (1126 - t) := Nat.mul_lt_mul_of_pos_right h2 hpos
      _ = 2 ^ 53 * 2 ^ (1126 - t) * d := by ring
  have hq0 : n * 2 ^ 1126 / d ≠ 0 := by
    have h0 : 0 < (2 : Nat) ^ (1126 + 52 - t) := Nat.two_pow_pos _
    omega
  have hl1 : 1126 + 52 - t ≤ Nat.log2 (n * 2 ^ 1126 / d) := (Nat.le_log2 hq0).2 hq1
  have hl2 : Nat.log2 (n * 2 ^ 1126 / d) < 1126 + 53 - t := (Nat.log2_lt hq0).2 hq2
  unfold ulpExp
  omega

theorem round_natCast (n d t : Nat) (hn : n ≠ 0) (he : ulpExp n d = -(t : Int)) :
    F64.round (n : Int) d = ⟨(rne (n * 2 ^ t) d : Nat), -(t : Int)⟩ := by
  have h0 : (n : Int) ≠ 0 := by exact_mod_cast hn
  have hs : Int.sign (n : Int) = 1 := by
    rw [Int.sign_eq_one_iff_pos]; omega
  simp [F64.round, roundNE, h0, hs, he]

theorem round_zero (d : Nat) : F64.round 0 d = ⟨0, 0⟩ := by
  simp [F64.round, roundNE]

theorem num_rep (m t : Nat) : F64.num ⟨(m : Int), -(t : Int)⟩ = (m : Int) := by
  simp [F64.num]

theorem den_rep (m t : Nat) : F64.den ⟨(m : Int), -(t : Int)⟩ = 2 ^ t := by
  simp [F64.den]

theorem toInt_rep (m t : Nat) :
    F64.toInt ⟨(m : Int), -(t : Int)⟩ = ((m / 2 ^ t : Nat) : Int) := by
  unfold F64.toInt
  rw [num_rep, den_rep]
  rcases Nat.eq_zero_or_pos m with h | h
  · subst h; simp
  · have hs : Int.sign (m : Int) = 1 := by
      rw [Int.sign_eq_one_iff_pos]; omega
    simp [hs]

/-! ## Soundness of the checked evaluation -/

theorem forceNat_eq {α : Sort u} (x : Nat) (k : Nat → α) : forceNat x k = k x := by
  cases x <;> rfl

theorem allBelow_iff (n : Nat) (p : Nat → Bool) :
    allBelow n p = true ↔ ∀ i, i < n → p i = true := by
  induction n with
  | zero => simp [allBelow]
  | succ n ih =>
    simp only [allBelow, Bool.and_eq_true, ih]
    constructor
    · rintro ⟨h0, h1⟩ i hi
      rcases Nat.lt_succ_iff_lt_or_eq.mp hi with h | h
      · exact h1 i h
      · exact h ▸ h0
    · intro h
      exact ⟨h n (Nat.lt_succ_self n), fun i hi => h i (Nat.lt_succ_of_lt hi)⟩

theorem rneF_eq (sn sd : Nat) : rneF sn sd = rne sn sd := by
  have hd : Nat.div sn sd = sn / sd := rfl
  have hm : Nat.mod sn sd = sn % sd := rfl
  have hm2 : Nat.mod (sn / sd) 2 = sn / sd % 2 := rfl
  simp only [rneF, rne, hd, hm, hm2, Nat.mul_eq, Nat.add_eq, Nat.sub_eq]
  by_cases h1 : 2 * (sn % sd) < sd
  · have u : 1 - (1 - (2 * (sn % sd) - sd)) = 0 := by omega
    have v : 1 - (2 * (sn % sd) - sd + (sd - 2 * (sn % sd))) = 0 := by omega
    simp [h1, u, v]
  · by_cases h2 : sd < 2 * (sn % sd)
    · have u : 1 - (1 - (2 * (sn % sd) - sd)) = 1 := by omega
      have v : 1 - (2 * (sn % sd) - sd + (sd - 2 * (sn % sd))) = 0 := by omega
      simp [h1, h2, u, v]
    · have u : 1 - (1 - (2 * (sn % sd) - sd)) = 0 := by omega
      have v : 1 - (2 * (sn % sd) - sd + (sd - 2 * (sn % sd))) = 1 := by omega
      simp [h1, h2, u, v]

theorem okR_sound (n d t : Nat) (h : okR n d t = true) :
    F64.round (n : Int) d = ⟨(rne (n * 2 ^ t) d : Nat), -(t : Int)⟩ := by
  simp only [okR, Nat.beq_eq, Nat.add_eq, Nat.sub_eq, Nat.mul_eq, Nat.pow_eq,
    Nat.succ_eq_add_one] at h
  have p52 : (2 : Nat) ^ 52 = 4503599627370496 := by norm_num
  have p53 : (2 : Nat) ^ 53 = 9007199254740992 := by norm_num
  have hd : 0 < d := by omega
  have h1 : 2 ^ 52 * d ≤ n * 2 ^ t := by rw [p52]; omega
  have h2 : n * 2 ^ t < 2 ^ 53 * d := by rw [p53]; omega
  have ht : t ≤ 1074 := by omega
  have hn : n ≠ 0 := by
    intro h0
    rw [h0, Nat.zero_mul] at h1
    omega
  exact round_natCast n d t hn (ulpExp_of_bracket n d t hd h1 h2 ht)

theorem rnd_sound (n d c1 c2 : Nat) (k : Nat → Nat → Bool) (h : rnd n d c1 c2 k = true) :
    ∃ m t : Nat, F64.round (n : Int) d = ⟨(m : Int), -(t : Int)⟩ ∧ k m t = true := by
  unfold rnd at h
  by_cases hn : n = 0
  · subst hn
    exact ⟨0, 0, by simpa using round_zero d, by simpa using h⟩
  · have hb : Nat.beq n 0 = false := by
      rw [← Bool.not_eq_true, Nat.beq_eq]; exact hn
    rw [hb, cond_false] at h
    cases h1 : okR n d c1
    · rw [h1, cond_false] at h
      cases h2 : okR n d c2
      · rw [h2, cond_false] at h
        exact absurd h (by decide)
      · rw [h2, cond_true, rneF_eq] at h
        exact ⟨_, _, okR_sound _ _ _ h2, h⟩
    · rw [h1, cond_true, rneF_eq] at h
      exact ⟨_, _, okR_sound _ _ _ h1, h⟩

theorem ofInt_255 :
    F64.ofInt 255 = ⟨((8972014882652160 : Nat) : Int), -((45 : Nat) : Int)⟩ := by
  have h := okR_sound 255 1 45 (by decide)
  have e : rne (255 * 2 ^ 45) 1 = 8972014882652160 := by decide
  rw [e] at h
  exact h

theorem ofInt_1 :
    F64.ofInt 1 = ⟨((4503599627370496 : Nat) : Int), -((52 : Nat) : Int)⟩ := by
  have h := okR_sound 1 1 52 (by decide)
  have e : rne (1 * 2 ^ 52) 1 = 4503599627370496 := by decide
  rw [e] at h
  exact h

theorem alphaC_sound (A : Nat) (k : Nat → Nat → Bool) (h : alphaC A k = true) :
    ∃ ma ta : Nat, F64.div (F64.ofInt A) (F64.ofInt 255) = ⟨(ma : Int), -(ta : Int)⟩
      ∧ k ma ta = true := by
  simp only [alphaC, forceNat_eq] at h
  obtain ⟨mA, tA, hA, h⟩ := rnd_sound _ _ _ _ _ h
  obtain ⟨ma, ta, ha, hk⟩ := rnd_sound _ _ _ _ _ h
  refine ⟨ma, ta, ?_, hk⟩
  rw [← ha]
  have hA1 : F64.ofInt (A : Int) = ⟨(mA : Int), -(tA : Int)⟩ := hA
  unfold F64.div
  rw [hA1, ofInt_255, num_rep, den_rep, num_rep, den_rep]
  have hs : Int.sign ((8972014882652160 : Nat) : Int) = 1 := by decide
  have hn : Int.natAbs ((8972014882652160 : Nat) : Int) = 8972014882652160 := by decide
  rw [hs, hn, mul_one]
  simp only [Nat.mul_eq, Nat.pow_eq]
  push_cast
  rfl

theorem whiteC_sound (ma ta jR : Nat) (k : Nat → Bool) (h : whiteC ma ta jR k = true) :
    ∃ w : Nat, F64.toInt (F64.mul (F64.ofInt 255)
        (F64.sub (F64.ofInt 1) ⟨(ma : Int), -(ta : Int)⟩)) = (w : Int) ∧ k w = true := by
  simp only [whiteC, Bool.and_eq_true, Nat.ble_eq, Nat.mul_eq, Nat.pow_eq] at h
  obtain ⟨hle, h⟩ := h
  obtain ⟨mr, tr, hr, h⟩ := rnd_sound _ _ _ _ _ h
  obtain ⟨mw, tw, hw, hk⟩ := rnd_sound _ _ _ _ _ h
  rw [forceNat_eq] at hk
  refine ⟨_, ?_, hk⟩
  have hsub : F64.sub (F64.ofInt 1) ⟨(ma : Int), -(ta : Int)⟩ = ⟨(mr : Int), -(tr : Int)⟩ := by
    rw [← hr]
    unfold F64.sub
    rw [ofInt_1, num_rep, den_rep, num_rep, den_rep]
    simp only [Nat.sub_eq, Nat.mul_eq, Nat.pow_eq]
    rw [Nat.cast_sub hle]
    push_cast
    rfl
  have hmul : F64.mul (F64.ofInt 255) ⟨(mr : Int), -(tr : Int)⟩ = ⟨(mw : Int), -(tw : Int)⟩ := by
    rw [← hw]
    unfold F64.mul
    rw [ofInt_255, num_rep, den_rep, num_rep, den_rep]
    push_cast
    rfl
  rw [hsub, hmul, toInt_rep]
  rfl

theorem rne_scale (k sn sd : Nat) (hk : 0 < k) : rne (k * sn) (k * sd) = rne sn sd := by
  unfold rne
  simp only [Nat.mul_div_mul_left sn sd hk, Nat.mul_mod_mul_left]
  have e : 2 * (k * (sn % sd)) = k * (2 * (sn % sd)) := by ring
  rw [e]
  by_cases h1 : 2 * (sn % sd) < sd
  · have : k * (2 * (sn % sd)) < k * sd := Nat.mul_lt_mul_of_pos_left h1 hk
    simp [h1, this]
  · have n1 : ¬ k * (2 * (sn % sd)) < k * sd := fun h => h1 (Nat.lt_of_mul_lt_mul_left h)
    by_cases h2 : sd < 2 * (sn % sd)
    · have : k * sd < k * (2 * (sn % sd)) := Nat.mul_lt_mul_of_pos_left h2 hk
      simp [h1, n1, h2, this]
    · have n2 : ¬ k * sd < k * (2 * (sn % sd)) := fun h => h2 (Nat.lt_of_mul_lt_mul_left h)
      simp [h1, n1, h2, n2]

theorem ulpExp_scale (k n d : Nat) (hk : 0 < k) : ulpExp (k * n) (k * d) = ulpExp n d := by
  unfold ulpExp
  rw [Nat.mul_assoc k n, Nat.mul_div_mul_left _ _ hk]

theorem round_scale (k : Nat) (n : Int) (d : Nat) (hk : 0 < k) :
    F64.round ((k : Int) * n) (k * d) = F64.round n d := by
  have hk0 : (k : Int) ≠ 0 := by omega
  have hs : Int.sign (k : Int) = 1 := by
    rw [Int.sign_eq_one_iff_pos]; omega
  unfold F64.round roundNE
  by_cases hn : n = 0
  · subst hn; simp
  · have hkn : (k : Int) * n ≠ 0 := mul_ne_zero hk0 hn
    simp only [hkn, hn, if_false, Int.natAbs_mul, Int.natAbs_ofNat, Int.sign_mul, hs, one_mul,
      ulpExp_scale _ _ _ hk]
    rw [Nat.mul_assoc k d, Nat.mul_assoc k n.natAbs, rne_scale _ _ _ hk]

theorem rne_one (x : Nat) : rne x 1 = x := by
  simp [rne, Nat.mod_one]

theorem byteExp_ok :
    allBelow 256 (fun ch => cond (Nat.beq ch 0) true (okR ch 1 (byteExp ch))) = true := by
  decide!

theorem ofInt_byte (ch : Nat) (hc : ch < 256) :
    F64.ofInt ch = ⟨((ch * 2 ^ byteExp ch : Nat) : Int), -(byteExp ch : Int)⟩ := by
  by_cases h0 : ch = 0
  · subst h0
    exact round_zero 1
  · have hb : Nat.beq ch 0 = false := by
      rw [← Bool.not_eq_true, Nat.beq_eq]; exact h0
    have h1 := (allBelow_iff _ _).1 byteExp_ok ch hc
    simp only [hb, cond_false] at h1
    have h := okR_sound ch 1 (byteExp ch) h1
    rw [rne_one] at h
    exact h

theorem prodC_sound (ma ta ch : Nat) (k : Nat → Bool) (hc : ch < 256)
    (h : prodC ma ta ch k = true) :
    ∃ x : Nat, F64.toInt (F64.mul (F64.ofInt ch) ⟨(ma : Int), -(ta : Int)⟩) = (x : Int)
      ∧ k x = true := by
  unfold prodC at h
  obtain ⟨mx, tx, hx, hk⟩ := rnd_sound _ _ _ _ _ h
  refine ⟨_, ?_, hk⟩
  have hmul : F64.mul (F64.ofInt ch) ⟨(ma : Int), -(ta : Int)⟩ = ⟨(mx : Int), -(tx : Int)⟩ := by
    rw [← hx]
    unfold F64.mul
    rw [ofInt_byte ch hc, num_rep, den_rep, num_rep, den_rep]
    have e : ((ch * 2 ^ byteExp ch : Nat) : Int) * (ma : Int)
        = ((2 ^ byteExp ch : Nat) : Int) * ((Nat.mul ch ma : Nat) : Int) := by
      simp only [Nat.mul_eq]; push_cast; ring
    rw [e, round_scale _ _ _ (Nat.two_pow_pos _)]
    rfl
  rw [hmul, toInt_rep]
  rfl

theorem sweepF_sound (lo nA nC : Nat) (p : Nat → Nat → Nat → Bool) (hn : nC ≤ 256)
    (h : sweepF lo nA nC p = true) (i ch : Nat) (hi : i < nA) (hc : ch < nC) :
    ∃ o : Nat, channel ch (lo + i) = (o : Int) ∧ p ch (lo + i) o = true := by
  unfold sweepF at h
  rw [allBelow_iff] at h
  have h1 := h i hi
  simp only [forceNat_eq, Nat.add_eq] at h1
  obtain ⟨ma, ta, ha, h2⟩ := alphaC_sound _ _ h1
  obtain ⟨w, hw, h3⟩ := whiteC_sound _ _ _ _ h2
  rw [allBelow_iff] at h3
  obtain ⟨x, hx, h4⟩ := prodC_sound _ _ _ _ (by omega) (h3 ch hc)
  refine ⟨x + w, ?_, h4⟩
  unfold channel
  rw [ha, hx, hw]
  push_cast
  rfl

/-! ## The table of outputs -/

theorem tbl_sound (ch A o : Nat) (h : tbl ch A o = true) :
    o ≤ ch * A / 255 + (255 - A) ∧ ch * A / 255 + (255 - A) ≤ o + 1 ∧ o ≤ 255 ∧ ch ≤ o + 1 := by
  have hd : ∀ a b : Nat, Nat.div a b = a / b := fun _ _ => rfl
  simp only [tbl, exactN, Nat.beq_eq, Nat.add_eq, Nat.mul_eq, Nat.sub_eq, hd,
    Nat.succ_eq_add_one] at h
  omega

theorem table_bounds : sweepF 0 256 256 tbl = true := by decide!

theorem table_alpha_255 : sweepF 255 1 256 (fun ch _ o => Nat.beq o ch) = true := by decide!

theorem table_alpha_0 : sweepF 0 1 256 (fun _ _ o => Nat.beq o 255) = true := by decide!

theorem table_black_128 : sweepF 128 1 1 (fun _ _ o => Nat.beq o 127) = true := by decide!

theorem table_black_43 : sweepF 43 1 1 (fun _ _ o => Nat.beq o 211) = true := by decide!

theorem table_white_43 :
    sweepF 43 1 256 (fun ch _ o => cond (Nat.beq ch 255) (Nat.beq o 254) true) = true := by
  decide!

theorem channel_table (ch A : Nat) (hc : ch < 256) (hA : A < 256) :
    ∃ o : Nat, channel ch A = (o : Int) ∧ tbl ch A o = true := by
  have h := sweepF_sound 0 256 256 tbl (Nat.le_refl _) table_bounds A ch hA hc
  rwa [Nat.zero_add] at h

theorem flattenExact_eq (ch A : Nat) (hA : A ≤ 255) :
    flattenExact ch A = ((ch * A / 255 : Nat) : Int) + (255 - (A : Int)) := by
  unfold flattenExact truncQ
  have hA' : (A : ℚ) ≤ 255 := by exact_mod_cast hA
  have hA0 : (0 : ℚ) ≤ (A : ℚ) := Nat.cast_nonneg A
  have e1 : (255 : ℚ) * (1 - (A : ℚ) / 255) = ((255 - A : Nat) : ℚ) := by
    rw [Nat.cast_sub hA]; push_cast; field_simp
  have e2 : (ch : ℚ) * ((A : ℚ) / 255) = ((ch * A : Nat) : ℚ) / ((255 : Nat) : ℚ) := by
    push_cast; ring
  have p1 : (0 : ℚ) ≤ 255 * (1 - (A : ℚ) / 255) := by rw [e1]; exact Nat.cast_nonneg _
  have p2 : (0 : ℚ) ≤ (ch : ℚ) * ((A : ℚ) / 255) := by positivity
  simp only [p1, p2, if_true]
  rw [e1, e2, Int.floor_natCast, Rat.floor_natCast_div_natCast]
  omega

theorem channel_facts (ch A : Nat) (hc : ch < 256) (hA : A < 256) :
    0 ≤ channel ch A ∧ channel ch A ≤ 255 ∧ (ch : Int) ≤ channel ch A + 1
      ∧ channel ch A ≤ flattenExact ch A ∧ flattenExact ch A ≤ channel ch A + 1 := by
  obtain ⟨o, ho, ht⟩ := channel_table ch A hc hA
  obtain ⟨h1, h2, h3, h4⟩ := tbl_sound ch A o ht
  rw [ho, flattenExact_eq ch A (by omega)]
  exact ⟨by omega, by omega, by omega, by omega, by omega⟩

theorem channel_alpha_255 (ch : Nat) (hc : ch < 256) : channel ch 255 = ch := by
  obtain ⟨o, ho, ht⟩ := sweepF_sound 255 1 256 _ (Nat.le_refl _) table_alpha_255 0 ch
    (by decide) hc
  rw [Nat.beq_eq] at ht
  rw [ht] at ho
  exact ho

theorem channel_alpha_0 (ch : Nat) (hc : ch < 256) : channel ch 0 = 255 := by
  obtain ⟨o, ho, ht⟩ := sweepF_sound 0 1 256 _ (Nat.le_refl _) table_alpha_0 0 ch
    (by decide) hc
  rw [Nat.beq_eq] at ht
  rw [ht] at ho
  exact ho

theorem channel_0_128 : channel 0 128 = 127 := by
  obtain ⟨o, ho, ht⟩ := sweepF_sound 128 1 1 _ (by decide) table_black_128 0 0
    (by decide) (by decide)
  rw [Nat.beq_eq] at ht
  rw [ht] at ho
  exact ho

theorem channel_0_43 : channel 0 43 = 211 := by
  obtain ⟨o, ho, ht⟩ := sweepF_sound 43 1 1 _ (by decide) table_black_43 0 0
    (by decide) (by decide)
  rw [Nat.beq_eq] at ht
  rw [ht] at ho
  exact ho

theorem channel_255_43 : channel 255 43 = 254 := by
  obtain ⟨o, ho, ht⟩ := sweepF_sound 43 1 256 _ (Nat.le_refl _) table_white_43 0 255
    (by decide) (by decide)
  have hb : Nat.beq 255 255 = true := by decide
  rw [hb, cond_true, Nat.beq_eq] at ht
  rw [ht] at ho
  exact ho

/-! ## Claims about `rgb` -/

/-- C1: for every colour with 8-bit channels, each of the three integers
returned by `rgb` lies between 0 and 255 inclusive. -/
theorem rgb_in_byte_range (c : RGBA) (h : c.valid) :
    (0 ≤ (rgb c).1 ∧ (rgb c).1 ≤ 255) ∧ (0 ≤ (rgb c).2.1 ∧ (rgb c).2.1 ≤ 255)
      ∧ (0 ≤ (rgb c).2.2 ∧ (rgb c).2.2 ≤ 255) := by
  obtain ⟨hR, hG, hB, hA⟩ := h
  rw [rgb_eq_channel]
  have r := channel_facts c.R c.A hR hA
  have g := channel_facts c.G c.A hG hA
  have b := channel_facts c.B c.A hB hA
  exact ⟨⟨r.1, r.2.1⟩, ⟨g.1, g.2.1⟩, ⟨b.1, b.2.1⟩⟩

theorem rgb_in_byte_range_witness :
    RGBA.valid ⟨103, 60, 79, 220⟩ ∧
      ((0 ≤ (rgb ⟨103, 60, 79, 220⟩).1 ∧ (rgb ⟨103, 60, 79, 220⟩).1 ≤ 255)
        ∧ (0 ≤ (rgb ⟨103, 60, 79, 220⟩).2.1 ∧ (rgb ⟨103, 60, 79, 220⟩).2.1 ≤ 255)
        ∧ (0 ≤ (rgb ⟨103, 60, 79, 220⟩).2.2 ∧ (rgb ⟨103, 60, 79, 220⟩).2.2 ≤ 255)) :=
  ⟨by decide, rgb_in_byte_range ⟨103, 60, 79, 220⟩ (by decide)⟩

/-- C2: a fully opaque colour (`A = 255`) with 8-bit channels is returned
unchanged: `rgb c = (R, G, B)`. -/
theorem rgb_at_full_alpha (c : RGBA) (h : c.valid) (hA : c.A = 255) :
    rgb c = ((c.R : Int), (c.G : Int), (c.B : Int)) := by
  obtain ⟨hR, hG, hB, -⟩ := h
  rw [rgb_eq_channel, hA, channel_alpha_255 c.R hR, channel_alpha_255 c.G hG,
    channel_alpha_255 c.B hB]

theorem rgb_at_full_alpha_witness :
    RGBA.valid ⟨103, 60, 79, 255⟩ ∧ (⟨103, 60, 79, 255⟩ : RGBA).A = 255 ∧
      rgb ⟨103, 60, 79, 255⟩ = (103, 60, 79) :=
  ⟨by decide, rfl, rgb_at_full_alpha ⟨103, 60, 79, 255⟩ (by decide) rfl⟩

/-- C3: a fully transparent colour (`A = 0`) with 8-bit channels flattens to
white, `(255, 255, 255)`, whatever its colour channels. -/
theorem rgb_transparent (c : RGBA) (h : c.valid) (hA : c.A = 0) :
    rgb c = (255, 255, 255) := by
  obtain ⟨hR, hG, hB, -⟩ := h
  rw [rgb_eq_channel, hA, channel_alpha_0 c.R hR, channel_alpha_0 c.G hG,
    channel_alpha_0 c.B hB]

theorem rgb_transparent_witness :
    RGBA.valid ⟨103, 60, 79, 0⟩ ∧ (⟨103, 60, 79, 0⟩ : RGBA).A = 0 ∧
      rgb ⟨103, 60, 79, 0⟩ = (255, 255, 255) :=
  ⟨by decide, rfl, rgb_transparent ⟨103, 60, 79, 0⟩ (by decide) rfl⟩

/-- C4, as stated, fails: for black at alpha 43 `rgb` returns 211 in each
channel, while the formula in exact arithmetic gives `0 + (255 - 43) = 212`. -/
theorem rgb_exact_counterexample :
    rgb ⟨0, 0, 0, 43⟩ = (211, 211, 211) ∧ flattenExact 0 43 = 212
      ∧ (rgb ⟨0, 0, 0, 43⟩).1 ≠ flattenExact 0 43 := by
  have e : flattenExact 0 43 = 212 := by
    rw [flattenExact_eq 0 43 (by decide)]; rfl
  have r : rgb ⟨0, 0, 0, 43⟩ = (211, 211, 211) := by
    rw [rgb_eq_channel]; simp only [channel_0_43]
  refine ⟨r, e, ?_⟩
  rw [r, e]; decide

/-- C4, amended: each channel returned by `rgb` is the sum of the two truncated
binary64 results `int(float64(channel) * alpha)` and `int(255 * (1.0 - alpha))`
with `alpha = float64(A) / 255.0`, every operation rounded to the nearest
binary64 value; for 8-bit inputs this sum never exceeds the value of the formula
in exact arithmetic, `⌊channel * A / 255⌋ + (255 - A)`, and falls short of it by
at most 1. -/
theorem rgb_near_exact (c : RGBA) (h : c.valid) :
    rgb c = (channel c.R c.A, channel c.G c.A, channel c.B c.A)
      ∧ (flattenExact c.R c.A - 1 ≤ (rgb c).1 ∧ (rgb c).1 ≤ flattenExact c.R c.A)
      ∧ (flattenExact c.G c.A - 1 ≤ (rgb c).2.1 ∧ (rgb c).2.1 ≤ flattenExact c.G c.A)
      ∧ (flattenExact c.B c.A - 1 ≤ (rgb c).2.2 ∧ (rgb c).2.2 ≤ flattenExact c.B c.A)
      ∧ flattenExact c.R c.A = ((c.R * c.A / 255 : Nat) : Int) + (255 - (c.A : Int))
      ∧ flattenExact c.G c.A = ((c.G * c.A / 255 : Nat) : Int) + (255 - (c.A : Int))
      ∧ flattenExact c.B c.A = ((c.B * c.A / 255 : Nat) : Int) + (255 - (c.A : Int)) := by
  obtain ⟨hR, hG, hB, hA⟩ := h
  have r := channel_facts c.R c.A hR hA
  have g := channel_facts c.G c.A hG hA
  have b := channel_facts c.B c.A hB hA
  have r1 : flattenExact c.R c.A - 1 ≤ channel c.R c.A := by omega
  have g1 : flattenExact c.G c.A - 1 ≤ channel c.G c.A := by omega
  have b1 : flattenExact c.B c.A - 1 ≤ channel c.B c.A := by omega
  have hA2 : c.A ≤ 255 := by omega
  exact ⟨rgb_eq_channel c, ⟨r1, r.2.2.2.1⟩, ⟨g1, g.2.2.2.1⟩, ⟨b1, b.2.2.2.1⟩,
    flattenExact_eq c.R c.A hA2, flattenExact_eq c.G c.A hA2, flattenExact_eq c.B c.A hA2⟩

theorem rgb_near_exact_witness :
    RGBA.valid ⟨103, 60, 79, 220⟩ ∧
      (rgb ⟨103, 60, 79, 220⟩ = (channel 103 220, channel 60 220, channel 79 220)
        ∧ (flattenExact 103 220 - 1 ≤ (rgb ⟨103, 60, 79, 220⟩).1
            ∧ (rgb ⟨103, 60, 79, 220⟩).1 ≤ flattenExact 103 220)
        ∧ (flattenExact 60 220 - 1 ≤ (rgb ⟨103, 60, 79, 220⟩).2.1
            ∧ (rgb ⟨103, 60, 79, 220⟩).2.1 ≤ flattenExact 60 220)
        ∧ (flattenExact 79 220 - 1 ≤ (rgb ⟨103, 60, 79, 220⟩).2.2
            ∧ (rgb ⟨103, 60, 79, 220⟩).2.2 ≤ flattenExact 79 220)
        ∧ flattenExact 103 220 = ((103 * 220 / 255 : Nat) : Int) + (255 - ((220 : Nat) : Int))
        ∧ flattenExact 60 220 = ((60 * 220 / 255 : Nat) : Int) + (255 - ((220 : Nat) : Int))
        ∧ flattenExact 79 220 = ((79 * 220 / 255 : Nat) : Int) + (255 - ((220 : Nat) : Int))) :=
  ⟨by decide, rgb_near_exact ⟨103, 60, 79, 220⟩ (by decide)⟩

/-- C5: black at alpha 128 flattens to 127 in each channel. -/
theorem rgb_black_half_alpha : rgb ⟨0, 0, 0, 128⟩ = (127, 127, 127) := by
  rw [rgb_eq_channel]; simp only [channel_0_128]

/-- C10, as stated, fails: opaque-white channels at alpha 43 come out as 254,
below the input value 255. -/
theorem rgb_darkens_counterexample :
    rgb ⟨255, 255, 255, 43⟩ = (254, 254, 254)
      ∧ ¬ ((255 : Int) ≤ (rgb ⟨255, 255, 255, 43⟩).1) := by
  have r : rgb ⟨255, 255, 255, 43⟩ = (254, 254, 254) := by
    rw [rgb_eq_channel]; simp only [channel_255_43]
  refine ⟨r, ?_⟩
  rw [r]; decide

/-- C10, amended: for 8-bit channels each output of `rgb` is at most 255 and at
least the input channel value minus 1. -/
theorem rgb_between (c : RGBA) (h : c.valid) :
    ((c.R : Int) - 1 ≤ (rgb c).1 ∧ (rgb c).1 ≤ 255)
      ∧ ((c.G : Int) - 1 ≤ (rgb c).2.1 ∧ (rgb c).2.1 ≤ 255)
      ∧ ((c.B : Int) - 1 ≤ (rgb c).2.2 ∧ (rgb c).2.2 ≤ 255) := by
  obtain ⟨hR, hG, hB, hA⟩ := h
  rw [rgb_eq_channel]
  have r := channel_facts c.R c.A hR hA
  have g := channel_facts c.G c.A hG hA
  have b := channel_facts c.B c.A hB hA
  have r1 : (c.R : Int) - 1 ≤ channel c.R c.A := by omega
  have g1 : (c.G : Int) - 1 ≤ channel c.G c.A := by omega
  have b1 : (c.B : Int) - 1 ≤ channel c.B c.A := by omega
  exact ⟨⟨r1, r.2.1⟩, ⟨g1, g.2.1⟩, ⟨b1, b.2.1⟩⟩

theorem rgb_between_witness :
    RGBA.valid ⟨255, 255, 255, 43⟩ ∧
      ((((255 : Nat) : Int) - 1 ≤ (rgb ⟨255, 255, 255, 43⟩).1 ∧ (rgb ⟨255, 255, 255, 43⟩).1 ≤ 255)
        ∧ (((255 : Nat) : Int) - 1 ≤ (rgb ⟨255, 255, 255, 43⟩).2.1
            ∧ (rgb ⟨255, 255, 255, 43⟩).2.1 ≤ 255)
        ∧ (((255 : Nat) : Int) - 1 ≤ (rgb ⟨255, 255, 255, 43⟩).2.2
            ∧ (rgb ⟨255, 255, 255, 43⟩).2.2 ≤ 255)) :=
  ⟨by decide, rgb_between ⟨255, 255, 255, 43⟩ (by decide)⟩

/-! ## Claims about the cursor -/

theorem cursor_moveTo {F : Type} (s : Fpdf F) (x y : F) : (s.MoveTo x y).cursor = some (x, y) := by
  simp [Fpdf.cursor, Fpdf.MoveTo, List.foldl_append]

theorem foldl_eq_applyOptions {F : Type} (opts : List (PDFOption F)) (s : Fpdf F) :
    opts.foldl (fun s opt => opt s) s = applyOptions opts s := by
  induction opts generalizing s with
  | nil => rfl
  | cons o os ih => simp only [List.foldl_cons, applyOptions, ih]

theorem fillColor_calls {F : Type} (p : PDF F) (pts : List (PointType F)) (cs : List RGBA) :
    (p.Polygon pts (cs.map FillColor)).fpdf.calls
      = p.fpdf.calls ++ cs.map (fun c => Call.SetFillColor (rgb c).1 (rgb c).2.1 (rgb c).2.2)
          ++ [Call.Polygon pts "F"] := by
  have key : ∀ (l : List RGBA) (s : Fpdf F),
      ((l.map FillColor).foldl (fun s opt => opt s) s).calls
        = s.calls ++ l.map (fun c => Call.SetFillColor (rgb c).1 (rgb c).2.1 (rgb c).2.2) := by
    intro l
    induction l with
    | nil => intro s; simp
    | cons c l ih =>
      intro s
      rw [List.map_cons, List.foldl_cons, ih]
      simp [FillColor, Fpdf.SetFillColor]
  simp only [PDF.Polygon, Fpdf.Polygon, key]

/-- C6: from any starting state, after `MoveAbs(x0, y0)` and then `Move(dx, dy)`
the wrapper's position is `(x0 + dx, y0 + dy)`, and the position last handed to
the surface by `MoveTo` is that same pair. -/
theorem moveAbs_then_move {F : Type} [Add F] (p : PDF F) (x0 y0 dx dy : F) :
    (((p.MoveAbs x0 y0).Move dx dy).x, ((p.MoveAbs x0 y0).Move dx dy).y) = (x0 + dx, y0 + dy)
      ∧ ((p.MoveAbs x0 y0).Move dx dy).fpdf.cursor = some (x0 + dx, y0 + dy)
      ∧ ((p.MoveAbs x0 y0).Move dx dy).fpdf.calls
          = p.fpdf.calls ++ [Call.MoveTo x0 y0, Call.MoveTo (x0 + dx) (y0 + dy)] := by
  refine ⟨rfl, cursor_moveTo _ _ _, ?_⟩
  simp [PDF.Move, PDF.MoveAbs, Fpdf.MoveTo]

theorem add_rep (ma ta mb tb t : Nat)
    (h : okR (ma * 2 ^ tb + mb * 2 ^ ta) (2 ^ ta * 2 ^ tb) t = true) :
    (⟨(ma : Int), -(ta : Int)⟩ : F64) + ⟨(mb : Int), -(tb : Int)⟩
      = ⟨(rne ((ma * 2 ^ tb + mb * 2 ^ ta) * 2 ^ t) (2 ^ ta * 2 ^ tb) : Nat), -(t : Int)⟩ := by
  rw [← okR_sound _ _ _ h]
  show F64.add _ _ = _
  unfold F64.add
  rw [num_rep, den_rep, num_rep, den_rep]
  push_cast
  rfl

theorem ofInt_2 : F64.ofInt 2 = ⟨((4503599627370496 : Nat) : Int), -((51 : Nat) : Int)⟩ := by
  have h := okR_sound 2 1 51 (by decide)
  have e : rne (2 * 2 ^ 51) 1 = 4503599627370496 := by decide
  rw [e] at h
  exact h

theorem ofInt_3 : F64.ofInt 3 = ⟨((6755399441055744 : Nat) : Int), -((51 : Nat) : Int)⟩ := by
  have h := okR_sound 3 1 51 (by decide)
  have e : rne (3 * 2 ^ 51) 1 = 6755399441055744 := by decide
  rw [e] at h
  exact h

theorem one_add_two : F64.ofInt 1 + F64.ofInt 2 = F64.ofInt 3 := by
  rw [ofInt_1, ofInt_2, ofInt_3, add_rep _ _ _ _ 51 (by decide)]
  have e : rne ((4503599627370496 * 2 ^ 51 + 4503599627370496 * 2 ^ 52) * 2 ^ 51)
      (2 ^ 52 * 2 ^ 51) = 6755399441055744 := by decide
  rw [e]

theorem ofInt_3_ne_2 : F64.ofInt 3 ≠ F64.ofInt 2 := by
  rw [ofInt_2, ofInt_3]; decide

/-- C7, as stated, fails: after `MoveAbs(1, 1)` and then `Move(2, 3)` the
wrapper's `x` is `1 + 2 = 3`, not the value `2` last passed to `Move`. -/
theorem cursor_state_counterexample :
    ((((⟨⟨[]⟩, F64.ofInt 0, F64.ofInt 0⟩ : PDF F64).MoveAbs (F64.ofInt 1) (F64.ofInt 1)).Move
        (F64.ofInt 2) (F64.ofInt 3)).x = F64.ofInt 3)
      ∧ ¬ ((((⟨⟨[]⟩, F64.ofInt 0, F64.ofInt 0⟩ : PDF F64).MoveAbs (F64.ofInt 1) (F64.ofInt 1)).Move
        (F64.ofInt 2) (F64.ofInt 3)).x = (CursorOp.Move (F64.ofInt 2) (F64.ofInt 3)).args.1) := by
  have e : (((⟨⟨[]⟩, F64.ofInt 0, F64.ofInt 0⟩ : PDF F64).MoveAbs (F64.ofInt 1) (F64.ofInt 1)).Move
        (F64.ofInt 2) (F64.ofInt 3)).x = F64.ofInt 1 + F64.ofInt 2 := rfl
  rw [e, one_add_two]
  exact ⟨rfl, ofInt_3_ne_2⟩

/-- C7, amended: after `MoveAbs(x, y)` the wrapper's position is `(x, y)`, the
value passed; after `Move(dx, dy)` it is the previous position plus `(dx, dy)`;
and after every `Move` or `MoveAbs`, at the end of any sequence of such calls
from any state, the surface's cursor as set by `MoveTo` equals the wrapper's
`(x, y)`. -/
theorem cursor_synchronised {F : Type} [Add F] (p : PDF F) (ops : List (CursorOp F))
    (op : CursorOp F) :
    ((p.run (ops ++ [op])).fpdf.cursor = some ((p.run (ops ++ [op])).x, (p.run (ops ++ [op])).y))
      ∧ (∀ x y, op = CursorOp.MoveAbs x y →
          ((p.run (ops ++ [op])).x, (p.run (ops ++ [op])).y) = (x, y))
      ∧ (∀ dx dy, op = CursorOp.Move dx dy →
          ((p.run (ops ++ [op])).x, (p.run (ops ++ [op])).y)
            = ((p.run ops).x + dx, (p.run ops).y + dy)) := by
  have e : p.run (ops ++ [op]) = (p.run ops).step op := by
    simp [PDF.run, List.foldl_append]
  rw [e]
  refine ⟨?_, ?_, ?_⟩
  · cases op <;> exact cursor_moveTo _ _ _
  · intro x y h; subst h; rfl
  · intro dx dy h; subst h; rfl

/-- C8: `Text` leaves the wrapper's position unchanged and issues the
place-text call at exactly that position. -/
theorem text_keeps_position {F : Type} (p : PDF F) (text : String) :
    ((p.Text text).x, (p.Text text).y) = (p.x, p.y)
      ∧ (p.Text text).fpdf.calls = p.fpdf.calls ++ [Call.Text p.x p.y text] :=
  ⟨rfl, rfl⟩

/-- C9: `Polygon` applies the options to the surface in list order, each once,
and then issues one filled-polygon draw with the points; with `FillColor`
options the fill colour in effect at the draw is `rgb` of the last one; the
wrapper's position is unchanged. -/
theorem polygon_applies_options {F : Type} (p : PDF F) (pts : List (PointType F)) :
    (∀ opts : List (PDFOption F),
        (p.Polygon pts opts).fpdf = (applyOptions opts p.fpdf).Polygon pts "F"
          ∧ ((p.Polygon pts opts).x, (p.Polygon pts opts).y) = (p.x, p.y))
      ∧ (∀ cs : List RGBA,
          (p.Polygon pts (cs.map FillColor)).fpdf.calls
            = p.fpdf.calls
                ++ cs.map (fun c => Call.SetFillColor (rgb c).1 (rgb c).2.1 (rgb c).2.2)
                ++ [Call.Polygon pts "F"])
      ∧ (∀ (cs : List RGBA) (c : RGBA),
          (applyOptions ((cs ++ [c]).map FillColor) p.fpdf).fillColor = some (rgb c)
            ∧ (p.Polygon pts ((cs ++ [c]).map FillColor)).fpdf.fillColor = some (rgb c)) := by
  refine ⟨fun opts => ⟨?_, rfl⟩, fillColor_calls p pts, fun cs c => ?_⟩
  · simp only [PDF.Polygon, foldl_eq_applyOptions]
  · have h := fillColor_calls p pts (cs ++ [c])
    have h2 : (applyOptions ((cs ++ [c]).map FillColor) p.fpdf).Polygon pts "F"
        = (p.Polygon pts ((cs ++ [c]).map FillColor)).fpdf := by
      simp only [PDF.Polygon, foldl_eq_applyOptions]
    have h3 : (applyOptions ((cs ++ [c]).map FillColor) p.fpdf).calls
        = p.fpdf.calls
          ++ (cs ++ [c]).map (fun c => Call.SetFillColor (rgb c).1 (rgb c).2.1 (rgb c).2.2) := by
      have := congrArg Fpdf.calls h2
      rw [h] at this
      simp only [Fpdf.Polygon] at this
      exact List.append_cancel_right this
    constructor
    · unfold Fpdf.fillColor
      rw [h3]
      simp [List.foldl_append]
    · unfold Fpdf.fillColor
      rw [h]
      simp [List.foldl_append]

end Certificate
